import Mathlib

/-!
Shallow embedding of the `nd-slice` crate: a flat buffer reinterpreted as an
n-dimensional array via row-major or column-major address computation.

Rust slices become `List`, `usize` becomes `Nat`, and panicking operations
(out-of-range indexing, the `assert_eq!` in the address calculator, the
underflowing `d - 1`) are modelled by `Option`, with `none` standing for a
panic. Fallible construction (`Result<_, ShapeError>`) becomes `Except`.
-/

/-- `Order` from `src/addressing.rs`: the memory order of a view. -/
inductive Order where
  | RowMajor
  | ColumnMajor
deriving DecidableEq, Repr

/-- Embedding of `row_major_address` from `src/addressing.rs`:

```
let d = { assert_eq!(shape.len(), index.len()); shape.len() };
let mut res = index[0];
for i in 1..d { res = res * shape[i] + index[i]; }
res
```

The failed `assert_eq!` and the panicking `index[0]` on an empty index are
`none`.  Inside the loop `i < d` equals both lengths, so the panicking
`shape[i]` / `index[i]` reads are total and rendered with `getD`. -/
def row_major_address (shape index : List Nat) : Option Nat :=
  if shape.length = index.length then
    match index.head? with
    | some r =>
        some ((List.range' 1 (shape.length - 1)).foldl
          (fun res i => res * shape.getD i 0 + index.getD i 0) r)
    | none => none
  else none

/-- Embedding of `col_major_address` from `src/addressing.rs`:

```
let d = { assert_eq!(shape.len(), index.len()); shape.len() };
let mut res = index[d - 1];
for i in (0..(d - 1)).rev() { res = res * shape[i] + index[i]; }
res
```

For `d = 0` the initialiser `index[d - 1]` panics (the usize subtraction
`d - 1` underflows): modelled by `getLast? = none`.  The loop visits
`d - 2, d - 3, ..., 0`, i.e. `(List.range' 0 (d - 1)).reverse`. -/
def col_major_address (shape index : List Nat) : Option Nat :=
  if shape.length = index.length then
    match index.getLast? with
    | some r =>
        some (((List.range' 0 (shape.length - 1)).reverse).foldl
          (fun res i => res * shape.getD i 0 + index.getD i 0) r)
    | none => none
  else none

/-- Embedding of `address` from `src/addressing.rs`. -/
def address (order : Order) (shape index : List Nat) : Option Nat :=
  match order with
  | Order.RowMajor => row_major_address shape index
  | Order.ColumnMajor => col_major_address shape index

/-- The buffer length demanded by a shape:
`shape.iter().fold(1, |acc, &x| acc * x)` as it appears in
`NdSlice::new`, `NdSliceMut::new` and `ShapeError`'s `Display` impl. -/
def shapeProduct (shape : List Nat) : Nat :=
  shape.foldl (fun acc x => acc * x) 1

/-- `ShapeError` from `src/errors.rs`: carries the rejected slice and the
rejected shape. -/
structure ShapeError (α : Type) where
  slice : List α
  shape : List Nat
deriving DecidableEq, Repr

/-- `ShapeError::new` from `src/errors.rs`. -/
def ShapeError.new {α : Type} (slice : List α) (shape : List Nat) : ShapeError α :=
  { slice := slice, shape := shape }

/-- The `Display` impl of `ShapeError` from `src/errors.rs`: renders

`"Constructing an NdSlice of shape: {:?} would need a slice of length {},
but a slice of length {} was provided"`

with the shape, `shape.iter().fold(1, |acc, &x| acc * x)` and
`slice.len()` interpolated. -/
def ShapeError.fmt {α : Type} (e : ShapeError α) : String :=
  "Constructing an NdSlice of shape: " ++ toString e.shape ++
    " would need a slice of length " ++ toString (shapeProduct e.shape) ++
    ", but a slice of length " ++ toString e.slice.length ++ " was provided"

/-- `NdSlice` from `src/nd_slice.rs`: an immutable n-dimensional view. -/
structure NdSlice (α : Type) where
  slice : List α
  shape : List Nat
  order : Order
deriving DecidableEq, Repr

/-- `NdSlice::new` from `src/nd_slice.rs`:

```
if slice.len() == shape.iter().fold(1, |acc, &x| acc * x) {
    Ok(Self { slice, shape, order })
} else {
    Err(ShapeError::new(slice, shape))
}
``` -/
def NdSlice.new {α : Type} (slice : List α) (shape : List Nat) (order : Order) :
    Except (ShapeError α) (NdSlice α) :=
  if slice.length = shapeProduct shape then
    Except.ok { slice := slice, shape := shape, order := order }
  else
    Except.error (ShapeError.new slice shape)

/-- `NdSlice::from_ptr` from `src/nd_slice.rs`:
`NdSlice::new(slice::from_raw_parts(ptr, len), shape, order)`.

A raw pointer is modelled by the list `buf` of elements readable through
it; `slice::from_raw_parts(ptr, len)` then denotes the first `len` of
them, defined (`some`) only when the caller's validity obligation
`len ≤ buf.length` holds — violating it is UB, modelled as `none`. -/
def NdSlice.from_ptr {α : Type} (buf : List α) (len : Nat) (shape : List Nat)
    (order : Order) : Option (Except (ShapeError α) (NdSlice α)) :=
  if len ≤ buf.length then some (NdSlice.new (buf.take len) shape order) else none

/-- `NdSlice::new_row_ordered` from `src/nd_slice.rs`. -/
def NdSlice.new_row_ordered {α : Type} (slice : List α) (shape : List Nat) :
    Except (ShapeError α) (NdSlice α) :=
  NdSlice.new slice shape Order.RowMajor

/-- `NdSlice::row_ordered_from_ptr` from `src/nd_slice.rs`. -/
def NdSlice.row_ordered_from_ptr {α : Type} (buf : List α) (len : Nat)
    (shape : List Nat) : Option (Except (ShapeError α) (NdSlice α)) :=
  NdSlice.from_ptr buf len shape Order.RowMajor

/-- `NdSlice::col_ordered` from `src/nd_slice.rs`. -/
def NdSlice.col_ordered {α : Type} (slice : List α) (shape : List Nat) :
    Except (ShapeError α) (NdSlice α) :=
  NdSlice.new slice shape Order.ColumnMajor

/-- `NdSlice::col_ordered_from_ptr` from `src/nd_slice.rs`. -/
def NdSlice.col_ordered_from_ptr {α : Type} (buf : List α) (len : Nat)
    (shape : List Nat) : Option (Except (ShapeError α) (NdSlice α)) :=
  NdSlice.from_ptr buf len shape Order.ColumnMajor

/-- The `Index` impl of `NdSlice` from `src/nd_slice.rs`:
`&self.slice[address(order, shape, &index)]`.  A panic — either inside
`address` or from the slice indexing when the computed offset is out of
range — is `none`. -/
def NdSlice.index {α : Type} (v : NdSlice α) (index : List Nat) : Option α :=
  match address v.order v.shape index with
  | some a => v.slice[a]?
  | none => none

/-- `NdSliceMut` from `src/nd_slice_mut.rs`: a mutable n-dimensional view. -/
structure NdSliceMut (α : Type) where
  slice : List α
  shape : List Nat
  order : Order
deriving DecidableEq, Repr

/-- `NdSliceMut::new` from `src/nd_slice_mut.rs` (same validation as
`NdSlice::new`). -/
def NdSliceMut.new {α : Type} (slice : List α) (shape : List Nat) (order : Order) :
    Except (ShapeError α) (NdSliceMut α) :=
  if slice.length = shapeProduct shape then
    Except.ok { slice := slice, shape := shape, order := order }
  else
    Except.error (ShapeError.new slice shape)

/-- `NdSliceMut::from_ptr` from `src/nd_slice_mut.rs`:
`NdSliceMut::new(slice::from_raw_parts_mut(ptr, len), shape, order)`,
modelled exactly as `NdSlice.from_ptr`. -/
def NdSliceMut.from_ptr {α : Type} (buf : List α) (len : Nat) (shape : List Nat)
    (order : Order) : Option (Except (ShapeError α) (NdSliceMut α)) :=
  if len ≤ buf.length then some (NdSliceMut.new (buf.take len) shape order) else none

/-- `NdSliceMut::new_row_ordered` from `src/nd_slice_mut.rs`. -/
def NdSliceMut.new_row_ordered {α : Type} (slice : List α) (shape : List Nat) :
    Except (ShapeError α) (NdSliceMut α) :=
  NdSliceMut.new slice shape Order.RowMajor

/-- `NdSliceMut::col_ordered` from `src/nd_slice_mut.rs`. -/
def NdSliceMut.col_ordered {α : Type} (slice : List α) (shape : List Nat) :
    Except (ShapeError α) (NdSliceMut α) :=
  NdSliceMut.new slice shape Order.ColumnMajor

/-- The `Index` impl of `NdSliceMut` from `src/nd_slice_mut.rs`:
`&self.slice[address(&self.order, &self.shape, &index)]`. -/
def NdSliceMut.index {α : Type} (v : NdSliceMut α) (index : List Nat) : Option α :=
  match address v.order v.shape index with
  | some a => v.slice[a]?
  | none => none

/-- The `IndexMut` impl of `NdSliceMut` from `src/nd_slice_mut.rs`, used as
the target of an assignment `n[[i, j]] = val`:
`self.slice[address(&self.order, &self.shape, &index)] = val`.  The write
panics (`none`) exactly when the slice indexing would: when the computed
offset is not below the buffer length. -/
def NdSliceMut.write {α : Type} (v : NdSliceMut α) (index : List Nat) (val : α) :
    Option (NdSliceMut α) :=
  match address v.order v.shape index with
  | some a =>
      if a < v.slice.length then
        some { slice := v.slice.set a val, shape := v.shape, order := v.order }
      else none
  | none => none

/-- Spec-side row-major recurrence, following the spec's words: the offset
after the loop has processed axes `1, ..., j`.  `rmSpecAux shape index 0`
is the initialisation `offset = index[0]`, and step `j+1` is
`offset = offset * shape[j+1] + index[j+1]`. -/
def rmSpecAux (shape index : List Nat) : Nat → Nat
  | 0 => index.getD 0 0
  | j + 1 => rmSpecAux shape index j * shape.getD (j + 1) 0 + index.getD (j + 1) 0

/-- Spec-side row-major offset: run the recurrence over axes `1` to `N−1`. -/
def specRowMajorOffset (shape index : List Nat) : Nat :=
  rmSpecAux shape index (shape.length - 1)

/-- Spec-side column-major recurrence, following the spec's words: the
offset after `t` loop steps.  Step `0` is the initialisation
`offset = index[N-1]`; step `t+1` processes axis `N-2-t`, so the axes are
visited in decreasing order `N-2, N-3, ..., 0`. -/
def cmSpecAux (shape index : List Nat) : Nat → Nat
  | 0 => index.getD (index.length - 1) 0
  | t + 1 => cmSpecAux shape index t * shape.getD (shape.length - 2 - t) 0 +
      index.getD (shape.length - 2 - t) 0

/-- Spec-side column-major offset: run the recurrence through all `N−1`
loop steps (axes `N−2` down to `0`). -/
def specColMajorOffset (shape index : List Nat) : Nat :=
  cmSpecAux shape index (shape.length - 1)

/-- Proof-side reformulation of the address loop: consume shape and index
extents pairwise from the front, accumulating `res * s + i`. -/
def addrLoop : List Nat → List Nat → Nat → Nat
  | s :: ss, i :: is, res => addrLoop ss is (res * s + i)
  | _, _, res => res

/-- `inBounds shape index` holds when the two lists have the same length
and every coordinate is strictly below the corresponding extent. -/
def inBounds : List Nat → List Nat → Bool
  | [], [] => true
  | s :: ss, i :: is => decide (i < s) && inBounds ss is
  | _, _ => false

/-! ### Helper lemmas -/

theorem addrLoop_map (shape index : List Nat) :
    ∀ (L : List Nat) (r : Nat),
      L.foldl (fun res i => res * shape.getD i 0 + index.getD i 0) r =
        addrLoop (L.map fun i => shape.getD i 0) (L.map fun i => index.getD i 0) r := by
  intro L
  induction L with
  | nil => intro r; rfl
  | cons a L ih => intro r; simp only [List.foldl_cons, List.map_cons, addrLoop, ih]

theorem map_getD_range' (l : List Nat) :
    ∀ (m k : Nat), k + m ≤ l.length →
      (List.range' k m).map (fun i => l.getD i 0) = (l.drop k).take m := by
  intro m
  induction m with
  | zero => intro k _; simp
  | succ m ih =>
      intro k hk
      have hklt : k < l.length := by omega
      rw [List.range'_succ, List.map_cons, ih (k + 1) (by omega),
        List.drop_eq_getElem_cons hklt, List.take_succ_cons,
        List.getD_eq_getElem l 0 hklt]

theorem addrLoop_concat :
    ∀ (ss is : List Nat), ss.length = is.length → ∀ (s i r : Nat),
      addrLoop (ss ++ [s]) (is ++ [i]) r = addrLoop ss is r * s + i := by
  intro ss
  induction ss with
  | nil =>
      intro is h s i r
      cases is with
      | nil => rfl
      | cons b bs => simp at h
  | cons a as ih =>
      intro is h s i r
      cases is with
      | nil => simp at h
      | cons b bs =>
          simp only [List.cons_append, addrLoop]
          exact ih bs (by simpa using h) s i (r * a + b)

theorem inBounds_length :
    ∀ (ss is : List Nat), inBounds ss is = true → ss.length = is.length := by
  intro ss
  induction ss with
  | nil =>
      intro is h
      cases is with
      | nil => rfl
      | cons b bs => simp [inBounds] at h
  | cons a as ih =>
      intro is h
      cases is with
      | nil => simp [inBounds] at h
      | cons b bs =>
          simp only [inBounds, Bool.and_eq_true] at h
          simp [ih bs h.2]

theorem inBounds_nil_left : ∀ (is : List Nat), is ≠ [] → inBounds [] is = false := by
  intro is h
  cases is with
  | nil => exact absurd rfl h
  | cons b bs => rfl

theorem inBounds_nil_right : ∀ (ss : List Nat), ss ≠ [] → inBounds ss [] = false := by
  intro ss h
  cases ss with
  | nil => exact absurd rfl h
  | cons a as => rfl

theorem inBounds_concat :
    ∀ (ss is : List Nat) (s i : Nat),
      inBounds (ss ++ [s]) (is ++ [i]) = (inBounds ss is && decide (i < s)) := by
  intro ss
  induction ss with
  | nil =>
      intro is s i
      cases is with
      | nil => simp [inBounds]
      | cons b bs =>
          have h1 : inBounds [] (bs ++ [i]) = false := inBounds_nil_left _ (by simp)
          simp [inBounds, h1]
  | cons a as ih =>
      intro is s i
      cases is with
      | nil =>
          have h1 : inBounds (as ++ [s]) [] = false := inBounds_nil_right _ (by simp)
          simp [inBounds, h1]
      | cons b bs =>
          simp [inBounds, ih bs s i, Bool.and_assoc]

theorem inBounds_reverse :
    ∀ (ss is : List Nat), inBounds ss.reverse is.reverse = inBounds ss is := by
  intro ss
  induction ss with
  | nil =>
      intro is
      cases is with
      | nil => rfl
      | cons b bs =>
          rw [List.reverse_nil, inBounds_nil_left ((b :: bs).reverse) (by simp),
            inBounds_nil_left (b :: bs) (by simp)]
  | cons a as ih =>
      intro is
      cases is with
      | nil =>
          rw [List.reverse_nil, inBounds_nil_right ((a :: as).reverse) (by simp),
            inBounds_nil_right (a :: as) (by simp)]
      | cons b bs =>
          simp only [List.reverse_cons, inBounds_concat, ih bs, inBounds]
          rw [Bool.and_comm]

theorem foldl_mul_shift :
    ∀ (l : List Nat) (a b : Nat),
      l.foldl (fun acc x => acc * x) (a * b) =
        a * l.foldl (fun acc x => acc * x) b := by
  intro l
  induction l with
  | nil => intro a b; rfl
  | cons x xs ih =>
      intro a b
      simp only [List.foldl_cons]
      rw [mul_assoc, ih]

theorem shapeProduct_cons (x : Nat) (l : List Nat) :
    shapeProduct (x :: l) = x * shapeProduct l := by
  simp only [shapeProduct, List.foldl_cons, one_mul]
  have h := foldl_mul_shift l x 1
  rw [Nat.mul_one] at h
  exact h

theorem shapeProduct_concat (l : List Nat) (x : Nat) :
    shapeProduct (l ++ [x]) = shapeProduct l * x := by
  simp only [shapeProduct, List.foldl_append, List.foldl_cons, List.foldl_nil]

theorem shapeProduct_reverse :
    ∀ (l : List Nat), shapeProduct l.reverse = shapeProduct l := by
  intro l
  induction l with
  | nil => rfl
  | cons x xs ih =>
      rw [List.reverse_cons, shapeProduct_concat, ih, shapeProduct_cons, Nat.mul_comm]

theorem row_major_eq_addrLoop (s0 : Nat) (ss : List Nat) (i0 : Nat) (is : List Nat)
    (h : ss.length = is.length) :
    row_major_address (s0 :: ss) (i0 :: is) = some (addrLoop ss is i0) := by
  unfold row_major_address
  rw [if_pos (by simp [h])]
  simp only [List.head?_cons, List.length_cons, Nat.add_sub_cancel]
  rw [addrLoop_map (s0 :: ss) (i0 :: is) (List.range' 1 ss.length) i0,
    map_getD_range' (s0 :: ss) ss.length 1 (by simp [Nat.add_comm]),
    map_getD_range' (i0 :: is) ss.length 1 (by simp [h, Nat.add_comm])]
  simp only [List.drop_succ_cons, List.drop_zero]
  rw [List.take_length, h, List.take_length]

theorem col_major_eq_addrLoop (ss ts : List Nat) (s i : Nat)
    (h : ss.length = ts.length) :
    col_major_address (ss ++ [s]) (ts ++ [i]) =
      some (addrLoop ss.reverse ts.reverse i) := by
  unfold col_major_address
  rw [if_pos (by simp [h])]
  rw [List.getLast?_concat]
  simp only [List.length_append, List.length_cons, List.length_nil, Nat.zero_add,
    Nat.add_sub_cancel]
  rw [addrLoop_map (ss ++ [s]) (ts ++ [i]) ((List.range' 0 ss.length).reverse) i,
    List.map_reverse, List.map_reverse,
    map_getD_range' (ss ++ [s]) ss.length 0 (by simp),
    map_getD_range' (ts ++ [i]) ss.length 0 (by simp [h])]
  simp only [List.drop_zero]
  rw [List.take_append_of_le_length (Nat.le_refl _),
    List.take_length]
  have hts : List.take ss.length (ts ++ [i]) = ts := by
    rw [h, List.take_left]
  rw [hts]

theorem addrLoop_lt :
    ∀ (ss is : List Nat) (r P : Nat), inBounds ss is = true → r < P →
      addrLoop ss is r < P * shapeProduct ss := by
  intro ss
  induction ss with
  | nil =>
      intro is r P hb hr
      cases is with
      | nil => simpa [addrLoop, shapeProduct] using hr
      | cons b bs =>
          rw [inBounds_nil_left (b :: bs) (by simp)] at hb
          exact absurd hb (by simp)
  | cons s ss ih =>
      intro is r P hb hr
      cases is with
      | nil =>
          rw [inBounds_nil_right (s :: ss) (by simp)] at hb
          exact absurd hb (by simp)
      | cons i is' =>
          simp only [inBounds, Bool.and_eq_true, decide_eq_true_eq] at hb
          obtain ⟨his, hbs⟩ := hb
          have hstep : r * s + i < P * s := by
            calc r * s + i < r * s + s := by omega
            _ = (r + 1) * s := by ring
            _ ≤ P * s := Nat.mul_le_mul_right s hr
          have hlt := ih is' (r * s + i) (P * s) hbs hstep
          rw [shapeProduct_cons]
          calc addrLoop (s :: ss) (i :: is') r = addrLoop ss is' (r * s + i) := rfl
          _ < P * s * shapeProduct ss := hlt
          _ = P * (s * shapeProduct ss) := by ring

theorem addrLoop_inj :
    ∀ (ss is js : List Nat) (i0 j0 : Nat),
      inBounds ss is = true → inBounds ss js = true →
      addrLoop ss is i0 = addrLoop ss js j0 → i0 = j0 ∧ is = js := by
  intro ss
  induction ss with
  | nil =>
      intro is js i0 j0 hbi hbj h
      cases is with
      | cons b bs =>
          rw [inBounds_nil_left (b :: bs) (by simp)] at hbi
          exact absurd hbi (by simp)
      | nil =>
          cases js with
          | cons c cs =>
              rw [inBounds_nil_left (c :: cs) (by simp)] at hbj
              exact absurd hbj (by simp)
          | nil => exact ⟨h, rfl⟩
  | cons s ss ih =>
      intro is js i0 j0 hbi hbj h
      cases is with
      | nil =>
          rw [inBounds_nil_right (s :: ss) (by simp)] at hbi
          exact absurd hbi (by simp)
      | cons i is' =>
          cases js with
          | nil =>
              rw [inBounds_nil_right (s :: ss) (by simp)] at hbj
              exact absurd hbj (by simp)
          | cons j js' =>
              simp only [inBounds, Bool.and_eq_true, decide_eq_true_eq] at hbi hbj
              obtain ⟨hi, hbi'⟩ := hbi
              obtain ⟨hj, hbj'⟩ := hbj
              have h' : addrLoop ss is' (i0 * s + i) = addrLoop ss js' (j0 * s + j) := h
              obtain ⟨heq, hts⟩ := ih is' js' (i0 * s + i) (j0 * s + j) hbi' hbj' h'
              have hs : 0 < s := Nat.lt_of_le_of_lt (Nat.zero_le i) hi
              rw [Nat.mul_comm i0 s, Nat.mul_comm j0 s] at heq
              have d1 : (s * i0 + i) / s = i0 := by
                rw [Nat.mul_add_div hs, Nat.div_eq_of_lt hi, Nat.add_zero]
              have d2 : (s * j0 + j) / s = j0 := by
                rw [Nat.mul_add_div hs, Nat.div_eq_of_lt hj, Nat.add_zero]
              have m1 : (s * i0 + i) % s = i := by
                rw [Nat.mul_add_mod, Nat.mod_eq_of_lt hi]
              have m2 : (s * j0 + j) % s = j := by
                rw [Nat.mul_add_mod, Nat.mod_eq_of_lt hj]
              have hdiv : i0 = j0 := by rw [← d1, ← d2, heq]
              have hmod : i = j := by rw [← m1, ← m2, heq]
              exact ⟨hdiv, by rw [hmod, hts]⟩

theorem address_lt (o : Order) (shape index : List Nat)
    (hb : inBounds shape index = true) (hne : index ≠ []) :
    ∃ a, address o shape index = some a ∧ a < shapeProduct shape := by
  have hlen := inBounds_length shape index hb
  have hsne : shape ≠ [] := by
    intro hs
    subst hs
    exact hne (List.length_eq_zero.mp hlen.symm)
  cases o with
  | RowMajor =>
      obtain ⟨s0, ss, rfl⟩ := List.exists_cons_of_ne_nil hsne
      obtain ⟨i0, is, rfl⟩ := List.exists_cons_of_ne_nil hne
      simp only [inBounds, Bool.and_eq_true, decide_eq_true_eq] at hb
      refine ⟨addrLoop ss is i0, ?_, ?_⟩
      · exact row_major_eq_addrLoop s0 ss i0 is (by simpa using hlen)
      · rw [shapeProduct_cons]
        exact addrLoop_lt ss is i0 s0 hb.2 hb.1
  | ColumnMajor =>
      rcases List.eq_nil_or_concat shape with hcon | ⟨sd, sl, hcon⟩
      · exact absurd hcon hsne
      rcases List.eq_nil_or_concat index with hconi | ⟨td, tl, hconi⟩
      · exact absurd hconi hne
      rw [List.concat_eq_append] at hcon hconi
      subst hcon
      subst hconi
      have hlsd : sd.length = td.length := by
        simp only [List.length_append, List.length_cons, List.length_nil] at hlen
        omega
      rw [inBounds_concat] at hb
      simp only [Bool.and_eq_true, decide_eq_true_eq] at hb
      obtain ⟨hbsd, htl⟩ := hb
      refine ⟨addrLoop sd.reverse td.reverse tl, ?_, ?_⟩
      · exact col_major_eq_addrLoop sd td sl tl hlsd
      · have hbrev : inBounds sd.reverse td.reverse = true := by
          rw [inBounds_reverse]; exact hbsd
        have hlt := addrLoop_lt sd.reverse td.reverse tl sl hbrev htl
        rw [shapeProduct_reverse] at hlt
        rw [shapeProduct_concat, Nat.mul_comm]
        exact hlt

theorem address_inj (o : Order) (shape ix jx : List Nat)
    (hbi : inBounds shape ix = true) (hbj : inBounds shape jx = true)
    (hne : ix ≠ []) (h : address o shape ix = address o shape jx) : ix = jx := by
  have hleni := inBounds_length shape ix hbi
  have hlenj := inBounds_length shape jx hbj
  have hsne : shape ≠ [] := by
    intro hs
    subst hs
    exact hne (List.length_eq_zero.mp hleni.symm)
  have hjne : jx ≠ [] := by
    intro hj
    subst hj
    simp only [List.length_nil] at hlenj
    exact hsne (List.length_eq_zero.mp hlenj)
  cases o with
  | RowMajor =>
      obtain ⟨s0, ss, rfl⟩ := List.exists_cons_of_ne_nil hsne
      obtain ⟨i0, is, rfl⟩ := List.exists_cons_of_ne_nil hne
      obtain ⟨j0, js, rfl⟩ := List.exists_cons_of_ne_nil hjne
      simp only [inBounds, Bool.and_eq_true, decide_eq_true_eq] at hbi hbj
      rw [address, address,
        row_major_eq_addrLoop s0 ss i0 is (by simpa using hleni),
        row_major_eq_addrLoop s0 ss j0 js (by simpa using hlenj)] at h
      have h' : addrLoop ss is i0 = addrLoop ss js j0 := by
        exact Option.some.inj h
      obtain ⟨h0, hrest⟩ := addrLoop_inj ss is js i0 j0 hbi.2 hbj.2 h'
      rw [h0, hrest]
  | ColumnMajor =>
      rcases List.eq_nil_or_concat shape with hcon | ⟨sd, sl, hcon⟩
      · exact absurd hcon hsne
      rcases List.eq_nil_or_concat ix with hconi | ⟨td, tl, hconi⟩
      · exact absurd hconi hne
      rcases List.eq_nil_or_concat jx with hconj | ⟨ud, ul, hconj⟩
      · exact absurd hconj hjne
      rw [List.concat_eq_append] at hcon hconi hconj
      subst hcon
      subst hconi
      subst hconj
      have hlsd : sd.length = td.length := by
        simp only [List.length_append, List.length_cons, List.length_nil] at hleni
        omega
      have hlsu : sd.length = ud.length := by
        simp only [List.length_append, List.length_cons, List.length_nil] at hlenj
        omega
      rw [inBounds_concat] at hbi hbj
      simp only [Bool.and_eq_true, decide_eq_true_eq] at hbi hbj
      rw [address, address,
        col_major_eq_addrLoop sd td sl tl hlsd,
        col_major_eq_addrLoop sd ud sl ul hlsu] at h
      have h' : addrLoop sd.reverse td.reverse tl = addrLoop sd.reverse ud.reverse ul :=
        Option.some.inj h
      have hbt : inBounds sd.reverse td.reverse = true := by
        rw [inBounds_reverse]; exact hbi.1
      have hbu : inBounds sd.reverse ud.reverse = true := by
        rw [inBounds_reverse]; exact hbj.1
      obtain ⟨h0, hrest⟩ := addrLoop_inj sd.reverse td.reverse ud.reverse tl ul hbt hbu h'
      rw [List.reverse_inj] at hrest
      rw [h0, hrest]

theorem rmSpecAux_eq_foldl (shape index : List Nat) :
    ∀ j, rmSpecAux shape index j =
      (List.range' 1 j).foldl (fun res i => res * shape.getD i 0 + index.getD i 0)
        (index.getD 0 0) := by
  intro j
  induction j with
  | zero => rfl
  | succ j ih =>
      rw [rmSpecAux, List.range'_concat, List.foldl_append]
      simp only [List.foldl_cons, List.foldl_nil]
      rw [ih]
      have harg : 1 + 1 * j = j + 1 := by omega
      rw [harg]

theorem cmSpecAux_concat (sd td : List Nat) (sl tl : Nat)
    (hlen : sd.length = td.length) :
    ∀ t, t ≤ sd.length →
      cmSpecAux (sd ++ [sl]) (td ++ [tl]) t =
        addrLoop (sd.reverse.take t) (td.reverse.take t) tl := by
  intro t
  induction t with
  | zero =>
      intro _
      simp only [cmSpecAux, List.take_zero, addrLoop]
      have h0 : (td ++ [tl]).length - 1 = td.length := by simp
      rw [h0, List.getD_append_right td [tl] 0 td.length (Nat.le_refl _), Nat.sub_self]
      rfl
  | succ t ih =>
      intro ht
      have htlt : t < sd.length := ht
      have httd : t < td.length := hlen ▸ htlt
      have hax : (sd ++ [sl]).length - 2 - t = sd.length - 1 - t := by
        simp only [List.length_append, List.length_cons, List.length_nil]
        omega
      have haxlt : sd.length - 1 - t < sd.length := by omega
      have haxtd : sd.length - 1 - t < td.length := by omega
      have hrs : t < sd.reverse.length := by rw [List.length_reverse]; exact htlt
      have hrt : t < td.reverse.length := by rw [List.length_reverse]; exact httd
      rw [cmSpecAux, ih (Nat.le_of_lt htlt), hax]
      have hgs : (sd ++ [sl]).getD (sd.length - 1 - t) 0 = sd.reverse.getD t 0 := by
        rw [List.getD_append sd [sl] 0 (sd.length - 1 - t) haxlt,
          List.getD_eq_getElem sd 0 haxlt, List.getD_eq_getElem sd.reverse 0 hrs,
          List.getElem_reverse]
      have hgt : (td ++ [tl]).getD (sd.length - 1 - t) 0 = td.reverse.getD t 0 := by
        have hidx : sd.length - 1 - t = td.length - 1 - t := by omega
        rw [List.getD_append td [tl] 0 (sd.length - 1 - t) haxtd,
          List.getD_eq_getElem td 0 haxtd, List.getD_eq_getElem td.reverse 0 hrt,
          List.getElem_reverse]
        simp only [hidx]
      rw [hgs, hgt]
      rw [List.take_succ, List.take_succ,
        List.getElem?_eq_getElem hrs, List.getElem?_eq_getElem hrt]
      simp only [Option.toList_some]
      rw [addrLoop_concat (sd.reverse.take t) (td.reverse.take t)
        (by simp [List.length_take, List.length_reverse, hlen]),
        List.getD_eq_getElem sd.reverse 0 hrs, List.getD_eq_getElem td.reverse 0 hrt]

theorem inBounds_iff (ss : List Nat) :
    ∀ (is : List Nat), inBounds ss is = true ↔
      (ss.length = is.length ∧ ∀ k, k < ss.length → is.getD k 0 < ss.getD k 0) := by
  induction ss with
  | nil =>
      intro is
      cases is with
      | nil => simp [inBounds]
      | cons b bs =>
          rw [inBounds_nil_left (b :: bs) (by simp)]
          simp
  | cons a as ih =>
      intro is
      cases is with
      | nil =>
          rw [inBounds_nil_right (a :: as) (by simp)]
          simp
      | cons b bs =>
          simp only [inBounds, Bool.and_eq_true, decide_eq_true_eq, ih bs,
            List.length_cons]
          constructor
          · rintro ⟨hb, hlen, hall⟩
            refine ⟨by omega, ?_⟩
            intro k hk
            cases k with
            | zero => simpa using hb
            | succ k =>
                rw [List.getD_cons_succ, List.getD_cons_succ]
                exact hall k (by omega)
          · rintro ⟨hlen, hall⟩
            refine ⟨by simpa using hall 0 (by omega), by omega, ?_⟩
            intro k hk
            have := hall (k + 1) (by omega)
            rw [List.getD_cons_succ, List.getD_cons_succ] at this
            exact this

theorem address_isSome (o : Order) (shape index : List Nat)
    (hlen : shape.length = index.length) (hne : index ≠ []) :
    ∃ a, address o shape index = some a := by
  have hsne : shape ≠ [] := by
    intro hs
    subst hs
    exact hne (List.length_eq_zero.mp hlen.symm)
  cases o with
  | RowMajor =>
      obtain ⟨s0, ss, rfl⟩ := List.exists_cons_of_ne_nil hsne
      obtain ⟨i0, is, rfl⟩ := List.exists_cons_of_ne_nil hne
      exact ⟨addrLoop ss is i0, row_major_eq_addrLoop s0 ss i0 is (by simpa using hlen)⟩
  | ColumnMajor =>
      rcases List.eq_nil_or_concat shape with hcon | ⟨sd, sl, hcon⟩
      · exact absurd hcon hsne
      rcases List.eq_nil_or_concat index with hconi | ⟨td, tl, hconi⟩
      · exact absurd hconi hne
      rw [List.concat_eq_append] at hcon hconi
      subst hcon
      subst hconi
      have hlsd : sd.length = td.length := by
        simp only [List.length_append, List.length_cons, List.length_nil] at hlen
        omega
      exact ⟨addrLoop sd.reverse td.reverse tl, col_major_eq_addrLoop sd td sl tl hlsd⟩

theorem row_major_eq_spec (shape index : List Nat)
    (hlen : shape.length = index.length) (hne : index ≠ []) :
    row_major_address shape index = some (specRowMajorOffset shape index) := by
  obtain ⟨i0, is, rfl⟩ := List.exists_cons_of_ne_nil hne
  unfold row_major_address specRowMajorOffset
  rw [if_pos hlen, List.head?_cons, rmSpecAux_eq_foldl, List.getD_cons_zero]

theorem col_major_eq_spec (sd td : List Nat) (sl tl : Nat)
    (hlen : sd.length = td.length) :
    specColMajorOffset (sd ++ [sl]) (td ++ [tl]) = addrLoop sd.reverse td.reverse tl := by
  unfold specColMajorOffset
  have hl : (sd ++ [sl]).length - 1 = sd.length := by
    simp only [List.length_append, List.length_cons, List.length_nil]
    omega
  rw [hl, cmSpecAux_concat sd td sl tl hlen sd.length (Nat.le_refl _)]
  rw [List.take_of_length_le (by simp),
    List.take_of_length_le (by simp [hlen])]

theorem col_major_address_eq_spec (shape index : List Nat)
    (hlen : shape.length = index.length) (hne : index ≠ []) :
    col_major_address shape index = some (specColMajorOffset shape index) := by
  have hsne : shape ≠ [] := by
    intro hs
    subst hs
    exact hne (List.length_eq_zero.mp hlen.symm)
  rcases List.eq_nil_or_concat shape with hcon | ⟨sd, sl, hcon⟩
  · exact absurd hcon hsne
  rcases List.eq_nil_or_concat index with hconi | ⟨td, tl, hconi⟩
  · exact absurd hconi hne
  rw [List.concat_eq_append] at hcon hconi
  subst hcon
  subst hconi
  have hlsd : sd.length = td.length := by
    simp only [List.length_append, List.length_cons, List.length_nil] at hlen
    omega
  rw [col_major_eq_addrLoop sd td sl tl hlsd, col_major_eq_spec sd td sl tl hlsd]

theorem NdSlice_new_ok_inv {α : Type} {s : List α} {sh : List Nat} {o : Order}
    {v : NdSlice α} (hv : NdSlice.new s sh o = Except.ok v) :
    v = ⟨s, sh, o⟩ ∧ s.length = shapeProduct sh := by
  unfold NdSlice.new at hv
  by_cases h : s.length = shapeProduct sh
  · rw [if_pos h] at hv
    exact ⟨(Except.ok.inj hv).symm, h⟩
  · rw [if_neg h] at hv
    exact absurd hv (by simp)

theorem NdSliceMut_new_ok_inv {α : Type} {s : List α} {sh : List Nat} {o : Order}
    {v : NdSliceMut α} (hv : NdSliceMut.new s sh o = Except.ok v) :
    v = ⟨s, sh, o⟩ ∧ s.length = shapeProduct sh := by
  unfold NdSliceMut.new at hv
  by_cases h : s.length = shapeProduct sh
  · rw [if_pos h] at hv
    exact ⟨(Except.ok.inj hv).symm, h⟩
  · rw [if_neg h] at hv
    exact absurd hv (by simp)

/-! ### Claim theorems -/

/-- C1: for every buffer, shape and order, construction of a view
(`NdSlice::new` / `NdSliceMut::new` and the row-major / column-major
convenience wrappers) succeeds iff the buffer's length equals the product
of the shape's extents (empty product = 1); on mismatch it returns a
`ShapeError` carrying the rejected buffer and shape, and no view is
constructed. -/
theorem construction_iff_shape_product {α : Type} (s : List α) (sh : List Nat)
    (o : Order) :
    (NdSlice.new s sh o = Except.ok ⟨s, sh, o⟩ ↔ s.length = shapeProduct sh) ∧
    (NdSlice.new s sh o = Except.error (ShapeError.new s sh) ↔
      s.length ≠ shapeProduct sh) ∧
    (NdSliceMut.new s sh o = Except.ok ⟨s, sh, o⟩ ↔ s.length = shapeProduct sh) ∧
    (NdSliceMut.new s sh o = Except.error (ShapeError.new s sh) ↔
      s.length ≠ shapeProduct sh) ∧
    shapeProduct [] = 1 ∧
    NdSlice.new_row_ordered s sh = NdSlice.new s sh Order.RowMajor ∧
    NdSlice.col_ordered s sh = NdSlice.new s sh Order.ColumnMajor ∧
    NdSliceMut.new_row_ordered s sh = NdSliceMut.new s sh Order.RowMajor ∧
    NdSliceMut.col_ordered s sh = NdSliceMut.new s sh Order.ColumnMajor := by
  by_cases h : s.length = shapeProduct sh <;>
    simp [NdSlice.new, NdSliceMut.new, NdSlice.new_row_ordered, NdSlice.col_ordered,
      NdSliceMut.new_row_ordered, NdSliceMut.col_ordered, ShapeError.new,
      shapeProduct, h]

/-- C2: the row-major address is computed by the spec's recurrence
(offset starts at `index[0]`, then for each axis `i` from `1` to `N−1` in
increasing order `offset = offset * shape[i] + index[i]`), and on shape
`[2,3]` the offsets of `[0,0],[0,1],[0,2],[1,0],[1,1],[1,2]` are
`0,1,2,3,4,5`. -/
theorem row_major_address_follows_spec :
    (∀ shape index : List Nat, shape.length = index.length → index ≠ [] →
      row_major_address shape index = some (specRowMajorOffset shape index)) ∧
    (∀ shape index : List Nat,
      address Order.RowMajor shape index = row_major_address shape index) ∧
    row_major_address [2, 3] [0, 0] = some 0 ∧
    row_major_address [2, 3] [0, 1] = some 1 ∧
    row_major_address [2, 3] [0, 2] = some 2 ∧
    row_major_address [2, 3] [1, 0] = some 3 ∧
    row_major_address [2, 3] [1, 1] = some 4 ∧
    row_major_address [2, 3] [1, 2] = some 5 := by
  refine ⟨row_major_eq_spec, fun _ _ => rfl, ?_, ?_, ?_, ?_, ?_, ?_⟩ <;> decide

/-- C2 witness: the general equation of `row_major_address_follows_spec`
applied at shape `[2,3]`, index `[1,2]`. -/
theorem row_major_address_follows_spec_witness :
    row_major_address [2, 3] [1, 2] = some (specRowMajorOffset [2, 3] [1, 2]) :=
  row_major_address_follows_spec.1 [2, 3] [1, 2] (by decide) (by decide)

/-- C3: the column-major address is computed by the spec's recurrence
(offset starts at `index[N-1]`, then for each axis `i` from `N−2` down to
`0` in decreasing order `offset = offset * shape[i] + index[i]`), and on
shape `[2,3]` the offsets of `[0,0],[0,1],[0,2],[1,0],[1,1],[1,2]` are
`0,2,4,1,3,5`. -/
theorem col_major_address_follows_spec :
    (∀ shape index : List Nat, shape.length = index.length → index ≠ [] →
      col_major_address shape index = some (specColMajorOffset shape index)) ∧
    (∀ shape index : List Nat,
      address Order.ColumnMajor shape index = col_major_address shape index) ∧
    col_major_address [2, 3] [0, 0] = some 0 ∧
    col_major_address [2, 3] [0, 1] = some 2 ∧
    col_major_address [2, 3] [0, 2] = some 4 ∧
    col_major_address [2, 3] [1, 0] = some 1 ∧
    col_major_address [2, 3] [1, 1] = some 3 ∧
    col_major_address [2, 3] [1, 2] = some 5 := by
  refine ⟨col_major_address_eq_spec, fun _ _ => rfl, ?_, ?_, ?_, ?_, ?_, ?_⟩ <;> decide

/-- C3 witness: the general equation of `col_major_address_follows_spec`
applied at shape `[2,3]`, index `[1,2]`. -/
theorem col_major_address_follows_spec_witness :
    col_major_address [2, 3] [1, 2] = some (specColMajorOffset [2, 3] [1, 2]) :=
  col_major_address_follows_spec.1 [2, 3] [1, 2] (by decide) (by decide)

theorem NdSlice_index_eq {α : Type} (v : NdSlice α) (idx : List Nat) {a : Nat}
    (h : address v.order v.shape idx = some a) : v.index idx = v.slice[a]? := by
  unfold NdSlice.index
  rw [h]

theorem NdSliceMut_index_eq {α : Type} (v : NdSliceMut α) (idx : List Nat) {a : Nat}
    (h : address v.order v.shape idx = some a) : v.index idx = v.slice[a]? := by
  unfold NdSliceMut.index
  rw [h]

theorem NdSliceMut_write_eq {α : Type} (v : NdSliceMut α) (idx : List Nat) (val : α)
    {a : Nat} (h : address v.order v.shape idx = some a) :
    v.write idx val =
      if a < v.slice.length then
        some { slice := v.slice.set a val, shape := v.shape, order := v.order }
      else none := by
  unfold NdSliceMut.write
  rw [h]

/-- C4 counterexample: on the row-major view of a 6-element buffer with
shape `[2,3]`, the index `[0,3]` has a coordinate (`3`) that is not below
its axis's extent (`3`), yet element access does not fault: it returns the
element at flat offset `3`.  So "faults iff some coordinate ≥ extent" is
false on the code. -/
theorem index_oob_coordinate_without_fault :
    NdSlice.new [10, 20, 30, 40, 50, 60] [2, 3] Order.RowMajor =
      Except.ok ⟨[10, 20, 30, 40, 50, 60], [2, 3], Order.RowMajor⟩ ∧
    inBounds [2, 3] [0, 3] = false ∧
    NdSlice.index ⟨[10, 20, 30, 40, 50, 60], [2, 3], Order.RowMajor⟩ [0, 3] =
      some 40 :=
  ⟨rfl, rfl, rfl⟩

/-- C4 amended: on a successfully constructed view, element access (read on
either view, write on the mutable view) faults iff the computed flat offset
falls outside `[0, buffer.length)`.  A fault implies some coordinate is ≥
its extent, and all-coordinates-in-bounds implies success, but a coordinate
may be ≥ its extent while the access still succeeds at an aliased offset. -/
theorem index_fault_iff_offset_out_of_range {α : Type} (s : List α) (sh : List Nat)
    (o : Order) (idx : List Nat) (hlen : idx.length = sh.length) (hne : idx ≠ []) :
    (∀ v : NdSlice α, NdSlice.new s sh o = Except.ok v →
      (v.index idx = none ↔ ∃ a, address o sh idx = some a ∧ s.length ≤ a) ∧
      (inBounds sh idx = true → ∃ x, v.index idx = some x) ∧
      (v.index idx = none → inBounds sh idx = false)) ∧
    (∀ w : NdSliceMut α, NdSliceMut.new s sh o = Except.ok w →
      (w.index idx = none ↔ ∃ a, address o sh idx = some a ∧ s.length ≤ a) ∧
      (∀ val, w.write idx val = none ↔
        ∃ a, address o sh idx = some a ∧ s.length ≤ a)) := by
  obtain ⟨a, ha⟩ := address_isSome o sh idx (by omega) hne
  constructor
  · intro v hv
    obtain ⟨rfl, hsl⟩ := NdSlice_new_ok_inv hv
    rw [NdSlice_index_eq ⟨s, sh, o⟩ idx ha]
    refine ⟨?_, ?_, ?_⟩
    · constructor
      · intro hnone
        exact ⟨a, ha, List.getElem?_eq_none_iff.mp hnone⟩
      · rintro ⟨b, hb, hble⟩
        rw [ha] at hb
        obtain rfl := Option.some.inj hb
        exact List.getElem?_eq_none_iff.mpr hble
    · intro hbounds
      obtain ⟨b, hb, hblt⟩ := address_lt o sh idx hbounds hne
      rw [ha] at hb
      obtain rfl := Option.some.inj hb
      rw [← hsl] at hblt
      exact ⟨_, List.getElem?_eq_getElem hblt⟩
    · intro hnone
      cases hbool : inBounds sh idx with
      | false => rfl
      | true =>
          obtain ⟨b, hb, hblt⟩ := address_lt o sh idx hbool hne
          rw [ha] at hb
          obtain rfl := Option.some.inj hb
          rw [← hsl] at hblt
          rw [List.getElem?_eq_getElem hblt] at hnone
          exact absurd hnone (by simp)
  · intro w hw
    obtain ⟨rfl, hsl⟩ := NdSliceMut_new_ok_inv hw
    constructor
    · rw [NdSliceMut_index_eq ⟨s, sh, o⟩ idx ha]
      constructor
      · intro hnone
        exact ⟨a, ha, List.getElem?_eq_none_iff.mp hnone⟩
      · rintro ⟨b, hb, hble⟩
        rw [ha] at hb
        obtain rfl := Option.some.inj hb
        exact List.getElem?_eq_none_iff.mpr hble
    · intro val
      rw [NdSliceMut_write_eq ⟨s, sh, o⟩ idx val ha]
      dsimp only
      constructor
      · intro hnone
        refine ⟨a, ha, ?_⟩
        by_contra hlt
        rw [if_pos (by omega)] at hnone
        exact absurd hnone (by simp)
      · rintro ⟨b, hb, hble⟩
        rw [ha] at hb
        obtain rfl := Option.some.inj hb
        rw [if_neg (by omega)]

/-- C4 witness: the amended theorem applied on the row-major `[2,3]` view of
a 6-element buffer at the in-bounds index `[1,2]`. -/
theorem index_fault_iff_offset_out_of_range_witness :
    ∃ x, NdSlice.index ⟨[10, 20, 30, 40, 50, 60], [2, 3], Order.RowMajor⟩ [1, 2] =
      some x :=
  ((index_fault_iff_offset_out_of_range [10, 20, 30, 40, 50, 60] [2, 3]
      Order.RowMajor [1, 2] (by decide) (by decide)).1
    ⟨[10, 20, 30, 40, 50, 60], [2, 3], Order.RowMajor⟩ rfl).2.1 (by decide)

/-- C5: for every order and every equal-length shape and index with every
coordinate strictly below its extent, the computed address is strictly less
than `product(shape)`; hence on a successfully constructed view
(`buffer.length = product(shape)`) every such access succeeds — the slice's
out-of-bounds panic branch is unreachable. -/
theorem in_bounds_address_lt_product (o : Order) (shape index : List Nat)
    (hlen : shape.length = index.length)
    (hb : ∀ k, k < shape.length → index.getD k 0 < shape.getD k 0)
    (hne : index ≠ []) :
    (∃ a, address o shape index = some a ∧ a < shapeProduct shape) ∧
    (∀ (α : Type) (s : List α) (v : NdSlice α), NdSlice.new s shape o = Except.ok v →
      ∃ x, v.index index = some x) ∧
    (∀ (α : Type) (s : List α) (w : NdSliceMut α),
      NdSliceMut.new s shape o = Except.ok w →
      (∃ x, w.index index = some x) ∧ ∀ val, ∃ w', w.write index val = some w') := by
  have hbB : inBounds shape index = true := (inBounds_iff shape index).mpr ⟨hlen, hb⟩
  obtain ⟨a, ha, hlt⟩ := address_lt o shape index hbB hne
  refine ⟨⟨a, ha, hlt⟩, ?_, ?_⟩
  · intro α s v hv
    obtain ⟨rfl, hsl⟩ := NdSlice_new_ok_inv hv
    rw [NdSlice_index_eq ⟨s, shape, o⟩ index ha]
    dsimp only
    exact ⟨_, List.getElem?_eq_getElem (show a < s.length by omega)⟩
  · intro α s w hw
    obtain ⟨rfl, hsl⟩ := NdSliceMut_new_ok_inv hw
    constructor
    · rw [NdSliceMut_index_eq ⟨s, shape, o⟩ index ha]
      dsimp only
      exact ⟨_, List.getElem?_eq_getElem (show a < s.length by omega)⟩
    · intro val
      rw [NdSliceMut_write_eq ⟨s, shape, o⟩ index val ha]
      dsimp only
      rw [if_pos (show a < s.length by omega)]
      exact ⟨_, rfl⟩

/-- C5 witness: the bound applied at column-major shape `[2,3]`,
index `[1,2]`. -/
theorem in_bounds_address_lt_product_witness :
    ∃ a, address Order.ColumnMajor [2, 3] [1, 2] = some a ∧
      a < shapeProduct [2, 3] :=
  (in_bounds_address_lt_product Order.ColumnMajor [2, 3] [1, 2] (by decide)
    (by decide) (by decide)).1

/-- C6: the row-major view over `[1,2,3,4,5,6]` and the column-major view
over the correspondingly permuted buffer `[1,4,2,5,3,6]`, both of shape
`[2,3]`, return the same element at every index `(r,c)` with `r < 2`,
`c < 3`. -/
theorem row_col_views_agree_2x3 :
    NdSlice.new_row_ordered [1, 2, 3, 4, 5, 6] [2, 3] =
      Except.ok ⟨[1, 2, 3, 4, 5, 6], [2, 3], Order.RowMajor⟩ ∧
    NdSlice.col_ordered [1, 4, 2, 5, 3, 6] [2, 3] =
      Except.ok ⟨[1, 4, 2, 5, 3, 6], [2, 3], Order.ColumnMajor⟩ ∧
    NdSlice.index ⟨[1, 2, 3, 4, 5, 6], [2, 3], Order.RowMajor⟩ [0, 0] =
      NdSlice.index ⟨[1, 4, 2, 5, 3, 6], [2, 3], Order.ColumnMajor⟩ [0, 0] ∧
    NdSlice.index ⟨[1, 2, 3, 4, 5, 6], [2, 3], Order.RowMajor⟩ [0, 1] =
      NdSlice.index ⟨[1, 4, 2, 5, 3, 6], [2, 3], Order.ColumnMajor⟩ [0, 1] ∧
    NdSlice.index ⟨[1, 2, 3, 4, 5, 6], [2, 3], Order.RowMajor⟩ [0, 2] =
      NdSlice.index ⟨[1, 4, 2, 5, 3, 6], [2, 3], Order.ColumnMajor⟩ [0, 2] ∧
    NdSlice.index ⟨[1, 2, 3, 4, 5, 6], [2, 3], Order.RowMajor⟩ [1, 0] =
      NdSlice.index ⟨[1, 4, 2, 5, 3, 6], [2, 3], Order.ColumnMajor⟩ [1, 0] ∧
    NdSlice.index ⟨[1, 2, 3, 4, 5, 6], [2, 3], Order.RowMajor⟩ [1, 1] =
      NdSlice.index ⟨[1, 4, 2, 5, 3, 6], [2, 3], Order.ColumnMajor⟩ [1, 1] ∧
    NdSlice.index ⟨[1, 2, 3, 4, 5, 6], [2, 3], Order.RowMajor⟩ [1, 2] =
      NdSlice.index ⟨[1, 4, 2, 5, 3, 6], [2, 3], Order.ColumnMajor⟩ [1, 2] :=
  ⟨rfl, rfl, rfl, rfl, rfl, rfl, rfl, rfl⟩

/-- C7: on a successfully constructed mutable view, writing `val` at an
in-bounds index `I` succeeds, a subsequent read at `I` returns `val`, and
the value observable at any other in-bounds index `J ≠ I` is unchanged. -/
theorem write_then_read {α : Type} (s : List α) (sh : List Nat) (o : Order)
    (v : NdSliceMut α) (I J : List Nat) (val : α)
    (hv : NdSliceMut.new s sh o = Except.ok v)
    (hbI : inBounds sh I = true) (hbJ : inBounds sh J = true) (hIJ : I ≠ J) :
    ∃ v', v.write I val = some v' ∧ v'.index I = some val ∧
      v'.index J = v.index J := by
  obtain ⟨rfl, hsl⟩ := NdSliceMut_new_ok_inv hv
  have hlenI := inBounds_length sh I hbI
  have hlenJ := inBounds_length sh J hbJ
  have hshne : sh ≠ [] := by
    intro h
    subst h
    apply hIJ
    rw [List.length_eq_zero.mp hlenI.symm, List.length_eq_zero.mp hlenJ.symm]
  have hIne : I ≠ [] := by
    intro h
    subst h
    simp only [List.length_nil] at hlenI
    exact hshne (List.length_eq_zero.mp hlenI)
  have hJne : J ≠ [] := by
    intro h
    subst h
    simp only [List.length_nil] at hlenJ
    exact hshne (List.length_eq_zero.mp hlenJ)
  obtain ⟨a, ha, hlta⟩ := address_lt o sh I hbI hIne
  obtain ⟨b, hb, hltb⟩ := address_lt o sh J hbJ hJne
  have hab : a ≠ b := by
    intro h
    subst h
    exact hIJ (address_inj o sh I J hbI hbJ hIne (by rw [ha, hb]))
  refine ⟨⟨s.set a val, sh, o⟩, ?_, ?_, ?_⟩
  · rw [NdSliceMut_write_eq ⟨s, sh, o⟩ I val ha]
    dsimp only
    rw [if_pos (show a < s.length by omega)]
  · rw [NdSliceMut_index_eq ⟨s.set a val, sh, o⟩ I ha]
    dsimp only
    rw [List.getElem?_set, if_pos rfl, if_pos (show a < s.length by omega)]
  · rw [NdSliceMut_index_eq ⟨s.set a val, sh, o⟩ J hb,
      NdSliceMut_index_eq ⟨s, sh, o⟩ J hb]
    dsimp only
    exact List.getElem?_set_ne hab

/-- C7 witness: write `9` at `[0,1]` of the row-major `[2,3]` view over
`[1,2,3,4,5,6]`, then read back `[0,1]` and the untouched `[1,1]`. -/
theorem write_then_read_witness :
    ∃ v', NdSliceMut.write ⟨[1, 2, 3, 4, 5, 6], [2, 3], Order.RowMajor⟩ [0, 1] 9 =
        some v' ∧
      NdSliceMut.index v' [0, 1] = some 9 ∧
      NdSliceMut.index v' [1, 1] =
        NdSliceMut.index ⟨[1, 2, 3, 4, 5, 6], [2, 3], Order.RowMajor⟩ [1, 1] :=
  write_then_read [1, 2, 3, 4, 5, 6] [2, 3] Order.RowMajor
    ⟨[1, 2, 3, 4, 5, 6], [2, 3], Order.RowMajor⟩ [0, 1] [1, 1] 9 rfl
    (by decide) (by decide) (by decide)

/-- C8: constructing a view from the buffer directly (`new`) and from the
buffer's raw pointer plus its explicit length (`from_ptr`) produce the same
construction outcome, and on success views with identical addressing
behaviour at every index — for both the immutable and the mutable view. -/
theorem from_ptr_matches_new {α : Type} (s : List α) (sh : List Nat) (o : Order) :
    NdSlice.from_ptr s s.length sh o = some (NdSlice.new s sh o) ∧
    NdSliceMut.from_ptr s s.length sh o = some (NdSliceMut.new s sh o) ∧
    (∀ v w : NdSlice α, NdSlice.new s sh o = Except.ok v →
      NdSlice.from_ptr s s.length sh o = some (Except.ok w) →
      ∀ idx, v.index idx = w.index idx) ∧
    (∀ v w : NdSliceMut α, NdSliceMut.new s sh o = Except.ok v →
      NdSliceMut.from_ptr s s.length sh o = some (Except.ok w) →
      (∀ idx, v.index idx = w.index idx) ∧
      ∀ idx val, v.write idx val = w.write idx val) := by
  have h1 : NdSlice.from_ptr s s.length sh o = some (NdSlice.new s sh o) := by
    unfold NdSlice.from_ptr
    rw [if_pos (Nat.le_refl _), List.take_length]
  have h2 : NdSliceMut.from_ptr s s.length sh o = some (NdSliceMut.new s sh o) := by
    unfold NdSliceMut.from_ptr
    rw [if_pos (Nat.le_refl _), List.take_length]
  refine ⟨h1, h2, ?_, ?_⟩
  · intro v w hv hw
    rw [h1, hv] at hw
    obtain rfl := Except.ok.inj (Option.some.inj hw)
    intro idx
    rfl
  · intro v w hv hw
    rw [h2, hv] at hw
    obtain rfl := Except.ok.inj (Option.some.inj hw)
    exact ⟨fun idx => rfl, fun idx val => rfl⟩

/-- C8 witness: the addressing-equivalence conjunct applied to the `[2,3]`
row-major view over `[1,2,3,4,5,6]`, built once via `new` and once via
`from_ptr` with the buffer's length. -/
theorem from_ptr_matches_new_witness :
    NdSlice.index (⟨[1, 2, 3, 4, 5, 6], [2, 3], Order.RowMajor⟩ : NdSlice Nat)
        [1, 2] =
      NdSlice.index ⟨[1, 2, 3, 4, 5, 6], [2, 3], Order.RowMajor⟩ [1, 2] :=
  (from_ptr_matches_new [1, 2, 3, 4, 5, 6] [2, 3] Order.RowMajor).2.2.1
    ⟨[1, 2, 3, 4, 5, 6], [2, 3], Order.RowMajor⟩
    ⟨[1, 2, 3, 4, 5, 6], [2, 3], Order.RowMajor⟩ rfl rfl [1, 2]

/-- C9: a `ShapeError`'s rendered message states the declared shape, the
required buffer length `product(shape)`, and the actual buffer length; and
the error is nothing beyond the rejected buffer and shape it carries. -/
theorem shape_error_message_mentions {α : Type} (e : ShapeError α) :
    (∃ a b c d : String, ShapeError.fmt e =
      a ++ toString e.shape ++ b ++ toString (shapeProduct e.shape) ++
        c ++ toString e.slice.length ++ d) ∧
    ShapeError.new e.slice e.shape = e := by
  refine ⟨⟨"Constructing an NdSlice of shape: ", " would need a slice of length ",
    ", but a slice of length ", " was provided", rfl⟩, ?_⟩
  cases e
  rfl

/-- C10: with the empty shape (`N = 0`), construction of either view
succeeds exactly when the buffer has length 1 (the empty product), yet
`address` never returns on zero axes — the row-major branch reads
`index[0]` and the column-major branch computes the underflowing `d - 1` —
so every element access (and write) with the empty index panics. -/
theorem zero_dim_construction_and_access {α : Type} (s : List α) (o : Order) :
    ((∃ v : NdSlice α, NdSlice.new s ([] : List Nat) o = Except.ok v) ↔
      s.length = 1) ∧
    ((∃ w : NdSliceMut α, NdSliceMut.new s ([] : List Nat) o = Except.ok w) ↔
      s.length = 1) ∧
    address o [] [] = none ∧
    (∀ v : NdSlice α, NdSlice.new s [] o = Except.ok v → v.index [] = none) ∧
    (∀ w : NdSliceMut α, NdSliceMut.new s [] o = Except.ok w →
      w.index [] = none ∧ ∀ val, w.write [] val = none) := by
  have haddr : address o ([] : List Nat) ([] : List Nat) = none := by
    cases o <;> rfl
  refine ⟨?_, ?_, haddr, ?_, ?_⟩
  · constructor
    · rintro ⟨v, hv⟩
      exact (NdSlice_new_ok_inv hv).2
    · intro h1
      refine ⟨⟨s, [], o⟩, ?_⟩
      unfold NdSlice.new
      rw [if_pos (show s.length = shapeProduct [] from h1)]
  · constructor
    · rintro ⟨w, hw⟩
      exact (NdSliceMut_new_ok_inv hw).2
    · intro h1
      refine ⟨⟨s, [], o⟩, ?_⟩
      unfold NdSliceMut.new
      rw [if_pos (show s.length = shapeProduct [] from h1)]
  · intro v hv
    obtain ⟨rfl, hsl⟩ := NdSlice_new_ok_inv hv
    unfold NdSlice.index
    dsimp only
    rw [haddr]
  · intro w hw
    obtain ⟨rfl, hsl⟩ := NdSliceMut_new_ok_inv hw
    constructor
    · unfold NdSliceMut.index
      dsimp only
      rw [haddr]
    · intro val
      unfold NdSliceMut.write
      dsimp only
      rw [haddr]

/-- C10 witness: a singleton buffer constructs a zero-dimensional view, and
reading it at the empty index panics. -/
theorem zero_dim_construction_and_access_witness :
    NdSlice.index (⟨[42], [], Order.RowMajor⟩ : NdSlice Nat) [] = none :=
  (zero_dim_construction_and_access [42] Order.RowMajor).2.2.2.1
    ⟨[42], [], Order.RowMajor⟩ rfl
